import Mathlib

/-!
Verification of the auditory-periphery orchestration layer `Zilany2009`
(file `src/pycat/zilany2009.py`).

The Python class coordinates three numerical kernels that live in the
native extension `_pycat` (`run_ihc`, `run_synapse`,
`run_spike_generator`).  The orchestration itself — construction,
CF-map computation (`set_freq`), the per-CF loop of `run`, and the
per-fiber loop of `_run_anf` — is embedded faithfully below.  The
native kernels are kept abstract: they are fields of a `Kernels`
record of pure functions threading an explicit random-generator state,
which models the NumPy global generator seeded by `np.random.seed` in
`__init__`.  Every kernel invocation the orchestration performs is
recorded in an event trace so that invocation-counting and
data-flow properties can be stated.
-/

/-- Auditory-nerve fiber type: the three string constants
`'hsr'`, `'msr'`, `'lsr'` that `run` passes to `_run_anf`. -/
inductive ANFType where
  | hsr
  | msr
  | lsr
  deriving DecidableEq, Repr

/-- One spike train as appended by `_run_anf`:
`anf_trains.append(spikes, cf=cf, typ=anf_type)`. -/
structure Train where
  spikes : List ℚ
  cf : ℝ
  typ : ANFType

/-- A recorded invocation of a native `_pycat` kernel, with the
arguments the orchestration passed and the result obtained. -/
inductive Event (V S : Type) where
  | ihcCall (cf : ℝ) (cohc cihc : ℚ) (result : V)
  | synCall (cf : ℝ) (typ : ANFType) (vihc : V) (implnt : String) (ffGn : Bool) (result : S)
  | spikeCall (synout : S) (result : List ℚ)

/-- Holds (`true`) exactly on synapse-kernel invocations. -/
def Event.isSyn {V S : Type} : Event V S → Bool
  | .synCall _ _ _ _ _ _ => true
  | _ => false

/-- Holds (`true`) exactly on IHC-kernel invocations. -/
def Event.isIhc {V S : Type} : Event V S → Bool
  | .ihcCall _ _ _ _ => true
  | _ => false

/-- Holds (`true`) exactly on spike-generator invocations. -/
def Event.isSpike {V S : Type} : Event V S → Bool
  | .spikeCall _ _ => true
  | _ => false

/-- Modelled from the spec: the native `_pycat` kernels (`run_ihc`,
`run_synapse`, `run_spike_generator`) are not part of this repository
excerpt.  Per the spec they are deterministic given their arguments
and the state of the random source: the IHC stage is "deterministic
given inputs (no internal randomness)", while the synapse (when noise
is enabled) and the spike generator draw from the process-wide NumPy
generator, modelled here as an explicit state of type `R` that each
stochastic kernel consumes and returns.  `V` is the type of `vihc`
signals, `S` of `synout` signals, `Sig` of input sounds; spike times
are rationals (seconds). -/
structure Kernels (V S R Sig : Type) where
  run_ihc : Sig → ℝ → ℚ → ℚ → ℚ → V
  run_synapse : R → ℚ → V → ℝ → ANFType → String → Bool → S × R
  run_spike_generator : R → ℚ → S → List ℚ × R

/-- State of a constructed `Zilany2009` object: the attributes set by
`__init__` (`_hsr_num`, `_msr_num`, `_lsr_num`, `_powerlaw_implnt`,
`_with_ffGn`, `_cohc`, `_cihc`, `_freq_map`) together with the state
of the NumPy random generator after `np.random.seed(seed)`. -/
structure Model (R : Type) where
  hsr_num : ℕ
  msr_num : ℕ
  lsr_num : ℕ
  powerlaw_implnt : String
  with_ffGn : Bool
  cohc : ℚ
  cihc : ℚ
  freq_map : List ℝ
  rng : R

/-- The body of the `for anf_id in range(anf_num)` loop of
`_run_anf`, recursing on the remaining iteration count and carrying
the Python local `synout` (`none` encodes `synout is None`).  Each
iteration regenerates `synout` when it is still `None` or when
`with_ffGn` holds, runs the spike generator, drops zero spike times,
rescales to milliseconds, and appends the train. -/
def runAnfLoop {V S R Sig : Type} (kern : Kernels V S R Sig) (fs : ℚ) (cf : ℝ)
    (vihc : V) (typ : ANFType) (implnt : String) (ffGn : Bool) :
    ℕ → Option S → R → List Train × R × List (Event V S)
  | 0, _, r => ([], r, [])
  | n + 1, synopt, r =>
    let syn : S × R × List (Event V S) :=
      match synopt, ffGn with
      | some s, false => (s, r, [])
      | _, _ =>
        let sr := kern.run_synapse r fs vihc cf typ implnt ffGn
        (sr.1, sr.2, [Event.synCall cf typ vihc implnt ffGn sr.1])
    let sp := kern.run_spike_generator syn.2.1 fs syn.1
    let tr : Train :=
      ⟨(sp.1.filter (fun t => decide (t ≠ 0))).map (fun t => t * 1000), cf, typ⟩
    let rest := runAnfLoop kern fs cf vihc typ implnt ffGn n (some syn.1) sp.2
    (tr :: rest.1, rest.2.1, syn.2.2 ++ [Event.spikeCall syn.1 sp.1] ++ rest.2.2)

/-- Embedding of `Zilany2009._run_anf(fs, cf, vihc, anf_type, anf_num)`: starts the
loop with `synout = None` and an empty train list. -/
def _run_anf {V S R Sig : Type} (kern : Kernels V S R Sig) (fs : ℚ) (cf : ℝ)
    (vihc : V) (typ : ANFType) (implnt : String) (ffGn : Bool) (n : ℕ) (r : R) :
    List Train × R × List (Event V S) :=
  runAnfLoop kern fs cf vihc typ implnt ffGn n none r

/-- The body of the `for cf in self._freq_map` loop of `run`: run the
IHC kernel once for this CF, then run the HSR, MSR and LSR groups,
each only when its fiber count is positive (`if self._hsr_num > 0`
etc.), all sharing the same `vihc`. -/
def runCF {V S R Sig : Type} (kern : Kernels V S R Sig) (m : Model R) (fs : ℚ)
    (sound : Sig) (cf : ℝ) (r : R) : List Train × R × List (Event V S) :=
  let vihc := kern.run_ihc sound cf fs m.cohc m.cihc
  let g1 :=
    if m.hsr_num ≠ 0 then
      _run_anf kern fs cf vihc .hsr m.powerlaw_implnt m.with_ffGn m.hsr_num r
    else ([], r, [])
  let g2 :=
    if m.msr_num ≠ 0 then
      _run_anf kern fs cf vihc .msr m.powerlaw_implnt m.with_ffGn m.msr_num g1.2.1
    else ([], g1.2.1, [])
  let g3 :=
    if m.lsr_num ≠ 0 then
      _run_anf kern fs cf vihc .lsr m.powerlaw_implnt m.with_ffGn m.lsr_num g2.2.1
    else ([], g2.2.1, [])
  (g1.1 ++ g2.1 ++ g3.1, g3.2.1,
    Event.ihcCall cf m.cohc m.cihc vihc :: (g1.2.2 ++ g2.2.2 ++ g3.2.2))

/-- Iteration of `runCF` over the frequency map, accumulating the
`trains` container of `run`. -/
def runLoop {V S R Sig : Type} (kern : Kernels V S R Sig) (m : Model R) (fs : ℚ)
    (sound : Sig) : List ℝ → R → List Train × R × List (Event V S)
  | [], r => ([], r, [])
  | cf :: cfs, r =>
    let here := runCF kern m fs sound cf r
    let rest := runLoop kern m fs sound cfs here.2.1
    (here.1 ++ rest.1, rest.2.1, here.2.2 ++ rest.2.2)

/-- Embedding of `Zilany2009.run(fs, sound)`: loops over `self._freq_map` starting
from the generator state held by the instance. -/
def Model.run {V S R Sig : Type} (kern : Kernels V S R Sig) (m : Model R) (fs : ℚ)
    (sound : Sig) : List Train × R × List (Event V S) :=
  runLoop kern m fs sound m.freq_map m.rng

/-- The Python value passed as the `cf` argument of `set_freq`:
an `int`, a `float`, a 3-tuple `(freq_min, freq_max, freq_num)`,
or one of the unsupported containers a caller might try (a Python
list or a NumPy array). -/
inductive CFArg where
  | ofInt (n : ℤ)
  | ofFloat (x : ℝ)
  | ofTuple (freq_min freq_max : ℝ) (freq_num : ℕ)
  | ofList (xs : List ℝ)
  | ofArray (xs : List ℝ)

/-- Holds (`true`) on the values accepted by `set_freq`: after the
`isinstance(cf, int)` conversion, the assertion
`isinstance(cf, tuple) or isinstance(cf, float)` holds. -/
def CFArg.isIntFloatOrTuple : CFArg → Bool
  | .ofList _ => false
  | .ofArray _ => false
  | _ => true

/-- Errors the orchestration can raise: the `assert` in `set_freq`,
and the spec's `InvalidParameter` kind. -/
inductive PyError where
  | assertionError
  | invalidParameter
  deriving DecidableEq, Repr

/-- Embedding of `np.linspace(a, b, n)`: `n` evenly spaced samples from `a` to `b`
inclusive, i.e. `a + (b - a) * i / (n - 1)` for `i = 0, …, n - 1`
(for `n = 1` the single sample is `a`; division by zero in ℝ makes
the uniform formula yield exactly that). -/
noncomputable def linspace (a b : ℝ) (n : ℕ) : List ℝ :=
  (List.range n).map (fun i : ℕ => a + (b - a) * (i : ℝ) / ((n : ℝ) - 1))

/-- The Greenwood-map branch of `set_freq`
(`GenerateGreenwood_CFList()` from DSAM, Liberman 1982): with
`aA = 456`, `k = 0.8`, `a = 2.1`, map
`x = log10(f / aA + k) / a` endpoints through `np.linspace` and back
through `f = aA * (10 ** (a * x) - k)`. -/
noncomputable def greenwoodMap (freq_min freq_max : ℝ) (freq_num : ℕ) : List ℝ :=
  let aA : ℝ := 456
  let k : ℝ := 0.8
  let a : ℝ := 2.1
  let xmin := Real.logb 10 (freq_min / aA + k) / a
  let xmax := Real.logb 10 (freq_max / aA + k) / a
  (linspace xmin xmax freq_num).map (fun x => aA * ((10 : ℝ) ^ (a * x) - k))

/-- Embedding of `Zilany2009.set_freq(cf)`: an `int` is converted to `float`; then
the assertion rejects anything that is neither a `tuple` nor a
`float`; a `float` yields the singleton map `[cf]`; a tuple yields the
Greenwood map. -/
noncomputable def set_freq : CFArg → Except PyError (List ℝ)
  | .ofInt n => .ok [(n : ℝ)]
  | .ofFloat x => .ok [x]
  | .ofTuple freq_min freq_max freq_num => .ok (greenwoodMap freq_min freq_max freq_num)
  | .ofList _ => .error .assertionError
  | .ofArray _ => .error .assertionError

/-- Embedding of `Zilany2009.__init__(anf_num, cf, powerlaw_implnt, with_ffGn, seed)`:
seeds the NumPy generator (`np.random.seed(seed)`; `seedFn` models
seeding with an integer, `entropy` the state obtained for
`seed=None`), stores the fiber counts and flags, hard-codes
`self._cohc = 1` and `self._cihc = 1`, and calls `set_freq(cf)`. -/
noncomputable def Zilany2009.init {R : Type} (seedFn : ℤ → R) (entropy : R)
    (anf_num : ℕ × ℕ × ℕ) (cf : CFArg) (powerlaw_implnt : String)
    (with_ffGn : Bool) (seed : Option ℤ) : Except PyError (Model R) :=
  match set_freq cf with
  | .error e => .error e
  | .ok fm =>
    .ok { hsr_num := anf_num.1
          msr_num := anf_num.2.1
          lsr_num := anf_num.2.2
          powerlaw_implnt := powerlaw_implnt
          with_ffGn := with_ffGn
          cohc := 1
          cihc := 1
          freq_map := fm
          rng := match seed with
                 | some s => seedFn s
                 | none => entropy }

/-- Modelled from the spec: the native `_pycat.run_synapse` kernel is
not part of this repository excerpt; per the spec an unrecognized
power-law implementation mode is an `InvalidParameter` error reported
synchronously to the caller.  The recognized modes are the two the
class docstring names for `powerlaw_implnt` ('approx' or the
(misspelt) 'actual' implementation of the power-law). -/
def checkPowerlaw (implnt : String) : Except PyError Unit :=
  if implnt = "actual" ∨ implnt = "approx" then .ok () else .error .invalidParameter

/-- Variant of `runAnfLoop` with the spec-modelled validation of
`powerlaw_implnt` performed by each `_pycat.run_synapse` call; a
raised error propagates out of the loop (Python exception
propagation). -/
def runAnfLoopE {V S R Sig : Type} (kern : Kernels V S R Sig) (fs : ℚ) (cf : ℝ)
    (vihc : V) (typ : ANFType) (implnt : String) (ffGn : Bool) :
    ℕ → Option S → R → Except PyError (List Train × R)
  | 0, _, r => .ok ([], r)
  | n + 1, synopt, r =>
    let syn : Except PyError (S × R) :=
      match synopt, ffGn with
      | some s, false => .ok (s, r)
      | _, _ =>
        match checkPowerlaw implnt with
        | .error e => .error e
        | .ok _ => .ok (kern.run_synapse r fs vihc cf typ implnt ffGn)
    match syn with
    | .error e => .error e
    | .ok (s, r1) =>
      let sp := kern.run_spike_generator r1 fs s
      match runAnfLoopE kern fs cf vihc typ implnt ffGn n (some s) sp.2 with
      | .error e => .error e
      | .ok (rest, r2) =>
        .ok (⟨(sp.1.filter (fun t => decide (t ≠ 0))).map (fun t => t * 1000), cf, typ⟩
               :: rest, r2)

/-- Variant of `_run_anf` under the spec-modelled native validation. -/
def runAnfE {V S R Sig : Type} (kern : Kernels V S R Sig) (fs : ℚ) (cf : ℝ)
    (vihc : V) (typ : ANFType) (implnt : String) (ffGn : Bool) (n : ℕ) (r : R) :
    Except PyError (List Train × R) :=
  runAnfLoopE kern fs cf vihc typ implnt ffGn n none r

/-- The per-CF body of `run` under the spec-modelled native
validation: any error raised by a fiber group aborts `run`. -/
def runCFE {V S R Sig : Type} (kern : Kernels V S R Sig) (m : Model R) (fs : ℚ)
    (sound : Sig) (cf : ℝ) (r : R) : Except PyError (List Train × R) :=
  let vihc := kern.run_ihc sound cf fs m.cohc m.cihc
  let g1 :=
    if m.hsr_num ≠ 0 then
      runAnfE kern fs cf vihc .hsr m.powerlaw_implnt m.with_ffGn m.hsr_num r
    else .ok ([], r)
  match g1 with
  | .error e => .error e
  | .ok (t1, r1) =>
    let g2 :=
      if m.msr_num ≠ 0 then
        runAnfE kern fs cf vihc .msr m.powerlaw_implnt m.with_ffGn m.msr_num r1
      else .ok ([], r1)
    match g2 with
    | .error e => .error e
    | .ok (t2, r2) =>
      let g3 :=
        if m.lsr_num ≠ 0 then
          runAnfE kern fs cf vihc .lsr m.powerlaw_implnt m.with_ffGn m.lsr_num r2
        else .ok ([], r2)
      match g3 with
      | .error e => .error e
      | .ok (t3, r3) => .ok (t1 ++ t2 ++ t3, r3)

/-- The CF loop of `run` under the spec-modelled native validation. -/
def runLoopE {V S R Sig : Type} (kern : Kernels V S R Sig) (m : Model R) (fs : ℚ)
    (sound : Sig) : List ℝ → R → Except PyError (List Train × R)
  | [], r => .ok ([], r)
  | cf :: cfs, r =>
    match runCFE kern m fs sound cf r with
    | .error e => .error e
    | .ok (ts, r1) =>
      match runLoopE kern m fs sound cfs r1 with
      | .error e => .error e
      | .ok (ts1, r2) => .ok (ts ++ ts1, r2)

/-- Variant of `Zilany2009.run` under the spec-modelled native validation of
`powerlaw_implnt`. -/
def Model.runE {V S R Sig : Type} (kern : Kernels V S R Sig) (m : Model R) (fs : ℚ)
    (sound : Sig) : Except PyError (List Train × R) :=
  runLoopE kern m fs sound m.freq_map m.rng

/-- A trivial concrete kernel bundle used to exercise the
orchestration on closed inputs: `vihc` values are naturals, `synout`
and sounds are trivial, the generator state is trivial, the IHC stage
returns `7`, and the spike generator reports candidate spike times
`0` s and `2` s. -/
def kernW : Kernels ℕ Unit Unit Unit :=
  { run_ihc := fun _ _ _ _ _ => 7
    run_synapse := fun _ _ _ _ _ _ _ => ((), ())
    run_spike_generator := fun _ _ _ => ([0, 2], ()) }

/-- A concrete kernel bundle with integer generator state, advancing
the state on each stochastic call. -/
def kernZ : Kernels ℕ Unit ℤ Unit :=
  { run_ihc := fun _ _ _ _ _ => 7
    run_synapse := fun r _ _ _ _ _ _ => ((), r + 1)
    run_spike_generator := fun r _ _ => ([(r : ℚ)], r + 2) }

/-- A concrete model state: one HSR fiber, CF 440 Hz, approximate
power law, noise disabled. -/
def mdlW : Model Unit :=
  { hsr_num := 1, msr_num := 0, lsr_num := 0, powerlaw_implnt := "approx"
    with_ffGn := false, cohc := 1, cihc := 1, freq_map := [440], rng := () }

/-- A concrete model state carrying an unrecognized power-law mode. -/
def mdlBad : Model Unit :=
  { hsr_num := 1, msr_num := 1, lsr_num := 1, powerlaw_implnt := "bogus"
    with_ffGn := true, cohc := 1, cihc := 1, freq_map := [1000], rng := () }


section AnfLemmas

variable {V S R Sig : Type} (kern : Kernels V S R Sig) (fs : ℚ) (cf : ℝ) (vihc : V)
variable (typ : ANFType) (implnt : String) (ffGn : Bool)

/-- The group loop emits one spike train per iteration. -/
theorem runAnfLoop_fst_length :
    ∀ (n : ℕ) (synopt : Option S) (r : R),
      (runAnfLoop kern fs cf vihc typ implnt ffGn n synopt r).1.length = n := by
  intro n
  induction n with
  | zero => intro synopt r; simp [runAnfLoop]
  | succ k ih =>
    intro synopt r
    rcases synopt with _ | s <;> cases ffGn <;> simp [runAnfLoop, ih]

/-- Every event emitted inside a fiber group is either a synapse call
with exactly the group's arguments or a spike-generator call. -/
theorem runAnfLoop_events_shape :
    ∀ (n : ℕ) (synopt : Option S) (r : R),
      ∀ ev ∈ (runAnfLoop kern fs cf vihc typ implnt ffGn n synopt r).2.2,
        (∃ s, ev = Event.synCall cf typ vihc implnt ffGn s) ∨
          ∃ s raw, ev = Event.spikeCall s raw := by
  intro n
  induction n with
  | zero => intro synopt r; simp [runAnfLoop]
  | succ k ih =>
    intro synopt r ev hev
    rcases synopt with _ | s <;> cases ffGn <;>
      simp only [runAnfLoop, List.mem_append, List.mem_singleton, List.nil_append,
        List.not_mem_nil, false_or] at hev <;>
      first
        | (rcases hev with (hev | hev) | hev
           · exact Or.inl ⟨_, hev⟩
           · exact Or.inr ⟨_, _, hev⟩
           · exact ih _ _ ev hev)
        | (rcases hev with hev | hev
           · exact Or.inr ⟨_, _, hev⟩
           · exact ih _ _ ev hev)

/-- Unfolding: with `synout = None` the first loop iteration always
regenerates `synout`, whatever `with_ffGn` is. -/
theorem runAnfLoop_succ_none (n : ℕ) (r : R) :
    runAnfLoop kern fs cf vihc typ implnt ffGn (n + 1) none r =
      (let sr := kern.run_synapse r fs vihc cf typ implnt ffGn
       let sp := kern.run_spike_generator sr.2 fs sr.1
       let rest := runAnfLoop kern fs cf vihc typ implnt ffGn n (some sr.1) sp.2
       (⟨(sp.1.filter (fun t => decide (t ≠ 0))).map (fun t => t * 1000), cf, typ⟩ :: rest.1,
        rest.2.1,
        Event.synCall cf typ vihc implnt ffGn sr.1 :: Event.spikeCall sr.1 sp.1 :: rest.2.2)) :=
  rfl

/-- Unfolding: with noise enabled each iteration regenerates `synout`. -/
theorem runAnfLoop_succ_some_true (n : ℕ) (r : R) (s : S) :
    runAnfLoop kern fs cf vihc typ implnt true (n + 1) (some s) r =
      (let sr := kern.run_synapse r fs vihc cf typ implnt true
       let sp := kern.run_spike_generator sr.2 fs sr.1
       let rest := runAnfLoop kern fs cf vihc typ implnt true n (some sr.1) sp.2
       (⟨(sp.1.filter (fun t => decide (t ≠ 0))).map (fun t => t * 1000), cf, typ⟩ :: rest.1,
        rest.2.1,
        Event.synCall cf typ vihc implnt true sr.1 :: Event.spikeCall sr.1 sp.1 :: rest.2.2)) :=
  rfl

/-- Unfolding: with noise disabled an already computed `synout` is
reused; no synapse call is made. -/
theorem runAnfLoop_succ_some_false (n : ℕ) (r : R) (s : S) :
    runAnfLoop kern fs cf vihc typ implnt false (n + 1) (some s) r =
      (let sp := kern.run_spike_generator r fs s
       let rest := runAnfLoop kern fs cf vihc typ implnt false n (some s) sp.2
       (⟨(sp.1.filter (fun t => decide (t ≠ 0))).map (fun t => t * 1000), cf, typ⟩ :: rest.1,
        rest.2.1,
        Event.spikeCall s sp.1 :: rest.2.2)) :=
  rfl

/-- Every train built inside a fiber group carries the group's CF and
fiber type, and its spike list is a spike-generator output recorded in
the trace, with zero entries removed and times rescaled to
milliseconds. -/
theorem runAnfLoop_trains_shape :
    ∀ (n : ℕ) (synopt : Option S) (r : R),
      ∀ tr ∈ (runAnfLoop kern fs cf vihc typ implnt ffGn n synopt r).1,
        tr.cf = cf ∧ tr.typ = typ ∧
          ∃ s raw,
            Event.spikeCall s raw ∈ (runAnfLoop kern fs cf vihc typ implnt ffGn n synopt r).2.2 ∧
              tr.spikes = (raw.filter (fun t => decide (t ≠ 0))).map (fun t => t * 1000) := by
  intro n
  induction n with
  | zero => intro synopt r; simp [runAnfLoop]
  | succ k ih =>
    intro synopt r tr htr
    rcases synopt with _ | s
    · rw [runAnfLoop_succ_none] at htr ⊢
      simp only [List.mem_cons] at htr
      rcases htr with rfl | htr
      · exact ⟨rfl, rfl, _, _, List.mem_cons_of_mem _ (List.mem_cons_self _ _), rfl⟩
      · obtain ⟨h1, h2, s0, raw, hmem, hsp⟩ := ih _ _ tr htr
        exact ⟨h1, h2, s0, raw, List.mem_cons_of_mem _ (List.mem_cons_of_mem _ hmem), hsp⟩
    · cases ffGn
      · rw [runAnfLoop_succ_some_false] at htr ⊢
        simp only [List.mem_cons] at htr
        rcases htr with rfl | htr
        · exact ⟨rfl, rfl, _, _, List.mem_cons_self _ _, rfl⟩
        · obtain ⟨h1, h2, s0, raw, hmem, hsp⟩ := ih _ _ tr htr
          exact ⟨h1, h2, s0, raw, List.mem_cons_of_mem _ hmem, hsp⟩
      · rw [runAnfLoop_succ_some_true] at htr ⊢
        simp only [List.mem_cons] at htr
        rcases htr with rfl | htr
        · exact ⟨rfl, rfl, _, _, List.mem_cons_of_mem _ (List.mem_cons_self _ _), rfl⟩
        · obtain ⟨h1, h2, s0, raw, hmem, hsp⟩ := ih _ _ tr htr
          exact ⟨h1, h2, s0, raw, List.mem_cons_of_mem _ (List.mem_cons_of_mem _ hmem), hsp⟩

/-- With noise enabled the loop makes one synapse call per iteration. -/
theorem runAnfLoop_syn_count_true :
    ∀ (n : ℕ) (synopt : Option S) (r : R),
      ((runAnfLoop kern fs cf vihc typ implnt true n synopt r).2.2.filter
        Event.isSyn).length = n := by
  intro n
  induction n with
  | zero => intro synopt r; simp [runAnfLoop]
  | succ k ih =>
    intro synopt r
    rcases synopt with _ | s
    · rw [runAnfLoop_succ_none]
      simp [List.filter_cons, Event.isSyn, ih]
    · rw [runAnfLoop_succ_some_true]
      simp [List.filter_cons, Event.isSyn, ih]

/-- With noise disabled and `synout` already computed, the rest of the
loop makes no synapse call, every spike-generator call consumes the
carried `synout`, and there is one spike-generator call per
iteration. -/
theorem runAnfLoop_false_reuse (s : S) :
    ∀ (n : ℕ) (r : R),
      ((runAnfLoop kern fs cf vihc typ implnt false n (some s) r).2.2.filter
          Event.isSyn) = [] ∧
        (∀ so raw,
          Event.spikeCall so raw ∈
              (runAnfLoop kern fs cf vihc typ implnt false n (some s) r).2.2 → so = s) ∧
        ((runAnfLoop kern fs cf vihc typ implnt false n (some s) r).2.2.filter
          Event.isSpike).length = n := by
  intro n
  induction n with
  | zero => intro r; simp [runAnfLoop]
  | succ k ih =>
    intro r
    rw [runAnfLoop_succ_some_false]
    refine ⟨?_, ?_, ?_⟩
    · simpa [List.filter_cons, Event.isSyn] using (ih _).1
    · intro so raw hmem
      simp only [List.mem_cons] at hmem
      rcases hmem with heq | hmem
      · cases heq; rfl
      · exact (ih _).2.1 so raw hmem
    · simpa [List.filter_cons, Event.isSpike] using (ih _).2.2

/-- The loop makes exactly one spike-generator call per iteration. -/
theorem runAnfLoop_spike_count :
    ∀ (n : ℕ) (synopt : Option S) (r : R),
      ((runAnfLoop kern fs cf vihc typ implnt ffGn n synopt r).2.2.filter
        Event.isSpike).length = n := by
  intro n
  induction n with
  | zero => intro synopt r; simp [runAnfLoop]
  | succ k ih =>
    intro synopt r
    rcases synopt with _ | s
    · rw [runAnfLoop_succ_none]
      simp [List.filter_cons, Event.isSpike, Event.isSyn, ih]
    · cases ffGn
      · rw [runAnfLoop_succ_some_false]
        simp [List.filter_cons, Event.isSpike, ih]
      · rw [runAnfLoop_succ_some_true]
        simp [List.filter_cons, Event.isSpike, Event.isSyn, ih]

/-- A fiber group emits no IHC events. -/
theorem runAnfLoop_filter_ihc (n : ℕ) (synopt : Option S) (r : R) :
    (runAnfLoop kern fs cf vihc typ implnt ffGn n synopt r).2.2.filter Event.isIhc = [] := by
  rw [List.filter_eq_nil_iff]
  intro ev hev
  rcases runAnfLoop_events_shape kern fs cf vihc typ implnt ffGn n synopt r ev hev with
    ⟨s, rfl⟩ | ⟨s, raw, rfl⟩ <;> simp [Event.isIhc]

/-- Trains of one (possibly skipped) fiber group: the group runs only
when its count is nonzero, and each train carries the group's CF and
type and a rescaled spike-generator output. -/
theorem guardedAnf_trains_shape (n : ℕ) (r : R) :
    ∀ tr ∈ (if n ≠ 0 then _run_anf kern fs cf vihc typ implnt ffGn n r
            else ([], r, ([] : List (Event V S)))).1,
      n ≠ 0 ∧ tr.cf = cf ∧ tr.typ = typ ∧
        ∃ s raw,
          Event.spikeCall s raw ∈
              (if n ≠ 0 then _run_anf kern fs cf vihc typ implnt ffGn n r
               else ([], r, [])).2.2 ∧
            tr.spikes = (raw.filter (fun t => decide (t ≠ 0))).map (fun t => t * 1000) := by
  by_cases hn : n ≠ 0
  · rw [if_pos hn]
    intro tr htr
    obtain ⟨hcf, htyp, s, raw, hmem, hsp⟩ :=
      runAnfLoop_trains_shape kern fs cf vihc typ implnt ffGn n none r tr htr
    exact ⟨hn, hcf, htyp, s, raw, hmem, hsp⟩
  · rw [if_neg hn]
    intro tr htr
    simp at htr

/-- Events of one (possibly skipped) fiber group: no IHC calls, and
every synapse call carries the group's arguments. -/
theorem guardedAnf_events_shape (n : ℕ) (r : R) :
    ((if n ≠ 0 then _run_anf kern fs cf vihc typ implnt ffGn n r
      else ([], r, ([] : List (Event V S)))).2.2.filter Event.isIhc = []) ∧
      ∀ ev ∈ (if n ≠ 0 then _run_anf kern fs cf vihc typ implnt ffGn n r
              else ([], r, ([] : List (Event V S)))).2.2,
        (∃ s, ev = Event.synCall cf typ vihc implnt ffGn s) ∨
          ∃ s raw, ev = Event.spikeCall s raw := by
  by_cases hn : n ≠ 0
  · rw [if_pos hn]
    exact ⟨runAnfLoop_filter_ihc kern fs cf vihc typ implnt ffGn n none r,
      runAnfLoop_events_shape kern fs cf vihc typ implnt ffGn n none r⟩
  · rw [if_neg hn]
    refine ⟨rfl, ?_⟩
    intro ev hev
    simp at hev

/-- Filter form of the IHC-absence property for a guarded group. -/
theorem guardedAnf_filter_ihc :
    ∀ (n : ℕ) (r : R),
      ((if n ≠ 0 then _run_anf kern fs cf vihc typ implnt ffGn n r
        else ([], r, ([] : List (Event V S)))).2.2.filter Event.isIhc) = [] := by
  intro n r
  by_cases hn : n ≠ 0
  · rw [if_pos hn]
    exact runAnfLoop_filter_ihc kern fs cf vihc typ implnt ffGn n none r
  · rw [if_neg hn]
    rfl

/-- Membership form of the event-shape property for a guarded group. -/
theorem guardedAnf_syn_args :
    ∀ (n : ℕ) (r : R) (ev : Event V S),
      ev ∈ (if n ≠ 0 then _run_anf kern fs cf vihc typ implnt ffGn n r
            else ([], r, ([] : List (Event V S)))).2.2 →
        (∃ s, ev = Event.synCall cf typ vihc implnt ffGn s) ∨
          ∃ s raw, ev = Event.spikeCall s raw := by
  intro n r ev hev
  by_cases hn : n ≠ 0
  · rw [if_pos hn] at hev
    exact runAnfLoop_events_shape kern fs cf vihc typ implnt ffGn n none r ev hev
  · rw [if_neg hn] at hev
    simp at hev

end AnfLemmas


section RunLemmas

variable {V S R Sig : Type} (kern : Kernels V S R Sig) (m : Model R) (fs : ℚ) (sound : Sig)

/-- One CF iteration emits one train per fiber instance of each
requested type; a zero count contributes none. -/
theorem runCF_fst_length (cf : ℝ) (r : R) :
    (runCF kern m fs sound cf r).1.length = m.hsr_num + m.msr_num + m.lsr_num := by
  simp only [runCF]
  split_ifs with h1 h2 h3 <;>
    simp [_run_anf, runAnfLoop_fst_length] <;> omega

/-- Trains of one CF iteration: tagged with this CF, typed by a group
with nonzero count, spikes a rescaled spike-generator output recorded
in this iteration's events. -/
theorem runCF_trains_shape (cf : ℝ) (r : R) :
    ∀ tr ∈ (runCF kern m fs sound cf r).1,
      (tr.typ = .hsr → m.hsr_num ≠ 0) ∧ (tr.typ = .msr → m.msr_num ≠ 0) ∧
        (tr.typ = .lsr → m.lsr_num ≠ 0) ∧ tr.cf = cf ∧
        ∃ s raw,
          Event.spikeCall s raw ∈ (runCF kern m fs sound cf r).2.2 ∧
            tr.spikes = (raw.filter (fun t => decide (t ≠ 0))).map (fun t => t * 1000) := by
  intro tr htr
  simp only [runCF] at htr ⊢
  rcases List.mem_append.mp htr with h | h
  · rcases List.mem_append.mp h with h | h
    · obtain ⟨hn, hcf, htyp, s, raw, hmem, hsp⟩ :=
        guardedAnf_trains_shape kern fs cf _ .hsr m.powerlaw_implnt m.with_ffGn m.hsr_num r
          tr h
      refine ⟨fun _ => hn, ?_, ?_, hcf, s, raw, ?_, hsp⟩
      · intro hm; exact absurd (htyp.symm.trans hm) (by decide)
      · intro hm; exact absurd (htyp.symm.trans hm) (by decide)
      · exact List.mem_cons_of_mem _ (List.mem_append_left _ (List.mem_append_left _ hmem))
    · obtain ⟨hn, hcf, htyp, s, raw, hmem, hsp⟩ :=
        guardedAnf_trains_shape kern fs cf _ .msr m.powerlaw_implnt m.with_ffGn m.msr_num _
          tr h
      refine ⟨?_, fun _ => hn, ?_, hcf, s, raw, ?_, hsp⟩
      · intro hm; exact absurd (htyp.symm.trans hm) (by decide)
      · intro hm; exact absurd (htyp.symm.trans hm) (by decide)
      · exact List.mem_cons_of_mem _ (List.mem_append_left _ (List.mem_append_right _ hmem))
  · obtain ⟨hn, hcf, htyp, s, raw, hmem, hsp⟩ :=
      guardedAnf_trains_shape kern fs cf _ .lsr m.powerlaw_implnt m.with_ffGn m.lsr_num _
        tr h
    refine ⟨?_, ?_, fun _ => hn, hcf, s, raw, ?_, hsp⟩
    · intro hm; exact absurd (htyp.symm.trans hm) (by decide)
    · intro hm; exact absurd (htyp.symm.trans hm) (by decide)
    · exact List.mem_cons_of_mem _ (List.mem_append_right _ hmem)

/-- One CF iteration records exactly one IHC invocation: for this CF,
with the model's health scalars. -/
theorem runCF_ihc_filter (cf : ℝ) (r : R) :
    (runCF kern m fs sound cf r).2.2.filter Event.isIhc
      = [Event.ihcCall cf m.cohc m.cihc (kern.run_ihc sound cf fs m.cohc m.cihc)] := by
  simp only [runCF]
  split_ifs with h1 h2 h3 <;>
    simp [Event.isIhc, List.filter_cons, List.filter_append, _run_anf, runAnfLoop_filter_ihc]

/-- Every synapse call of one CF iteration consumes the `vihc` this
iteration's IHC call produced, with the model's mode and noise flag. -/
theorem runCF_syn_args :
    ∀ (cf : ℝ) (r : R) (c : ℝ) (t : ANFType) (v : V) (i : String) (g : Bool) (s : S),
      Event.synCall c t v i g s ∈ (runCF kern m fs sound cf r).2.2 →
        c = cf ∧ v = kern.run_ihc sound cf fs m.cohc m.cihc ∧
          i = m.powerlaw_implnt ∧ g = m.with_ffGn := by
  intro cf r c t v i g s hmem
  simp only [runCF, List.mem_cons] at hmem
  rcases hmem with heq | hmem
  · cases heq
  rcases List.mem_append.mp hmem with h | h
  · rcases List.mem_append.mp h with h | h
    · rcases guardedAnf_syn_args kern fs cf _ .hsr m.powerlaw_implnt m.with_ffGn _ _ _ h with
        ⟨s0, heq⟩ | ⟨s0, raw, heq⟩
      · cases heq; exact ⟨rfl, rfl, rfl, rfl⟩
      · cases heq
    · rcases guardedAnf_syn_args kern fs cf _ .msr m.powerlaw_implnt m.with_ffGn _ _ _ h with
        ⟨s0, heq⟩ | ⟨s0, raw, heq⟩
      · cases heq; exact ⟨rfl, rfl, rfl, rfl⟩
      · cases heq
  · rcases guardedAnf_syn_args kern fs cf _ .lsr m.powerlaw_implnt m.with_ffGn _ _ _ h with
      ⟨s0, heq⟩ | ⟨s0, raw, heq⟩
    · cases heq; exact ⟨rfl, rfl, rfl, rfl⟩
    · cases heq

/-- The CF loop emits `|freq_map| * (hsr + msr + lsr)` trains. -/
theorem runLoop_fst_length :
    ∀ (cfs : List ℝ) (r : R),
      (runLoop kern m fs sound cfs r).1.length
        = cfs.length * (m.hsr_num + m.msr_num + m.lsr_num) := by
  intro cfs
  induction cfs with
  | nil => intro r; simp [runLoop]
  | cons c cfs ih =>
    intro r
    simp only [runLoop, List.length_append, List.length_cons]
    rw [runCF_fst_length, ih]
    ring

/-- Trains of the CF loop: typed by a group with nonzero count, tagged
with a CF of the list, spikes a rescaled spike-generator output
recorded in the trace. -/
theorem runLoop_trains_shape :
    ∀ (cfs : List ℝ) (r : R),
      ∀ tr ∈ (runLoop kern m fs sound cfs r).1,
        (tr.typ = .hsr → m.hsr_num ≠ 0) ∧ (tr.typ = .msr → m.msr_num ≠ 0) ∧
          (tr.typ = .lsr → m.lsr_num ≠ 0) ∧ tr.cf ∈ cfs ∧
          ∃ s raw,
            Event.spikeCall s raw ∈ (runLoop kern m fs sound cfs r).2.2 ∧
              tr.spikes = (raw.filter (fun t => decide (t ≠ 0))).map (fun t => t * 1000) := by
  intro cfs
  induction cfs with
  | nil => intro r tr htr; simp [runLoop] at htr
  | cons c cfs ih =>
    intro r tr htr
    simp only [runLoop] at htr ⊢
    rcases List.mem_append.mp htr with h | h
    · obtain ⟨ha, hb, hc, hcf, s, raw, hmem, hsp⟩ := runCF_trains_shape kern m fs sound c r tr h
      exact ⟨ha, hb, hc, by rw [hcf]; exact List.mem_cons_self _ _, s, raw,
        List.mem_append_left _ hmem, hsp⟩
    · obtain ⟨ha, hb, hc, hcf, s, raw, hmem, hsp⟩ := ih _ tr h
      exact ⟨ha, hb, hc, List.mem_cons_of_mem _ hcf, s, raw,
        List.mem_append_right _ hmem, hsp⟩

/-- The CF loop records exactly one IHC invocation per listed CF, in
order, each with the model's health scalars. -/
theorem runLoop_ihc_filter :
    ∀ (cfs : List ℝ) (r : R),
      (runLoop kern m fs sound cfs r).2.2.filter Event.isIhc
        = cfs.map (fun c => Event.ihcCall c m.cohc m.cihc (kern.run_ihc sound c fs m.cohc m.cihc)) := by
  intro cfs
  induction cfs with
  | nil => intro r; simp [runLoop]
  | cons c cfs ih =>
    intro r
    simp only [runLoop, List.filter_append, List.map_cons]
    rw [runCF_ihc_filter, ih]
    rfl

/-- Every synapse call of the CF loop consumes the IHC output for its
own CF, with the model's power-law mode and noise flag. -/
theorem runLoop_syn_args :
    ∀ (cfs : List ℝ) (r : R) (c : ℝ) (t : ANFType) (v : V) (i : String) (g : Bool) (s : S),
      Event.synCall c t v i g s ∈ (runLoop kern m fs sound cfs r).2.2 →
        v = kern.run_ihc sound c fs m.cohc m.cihc ∧ i = m.powerlaw_implnt ∧ g = m.with_ffGn := by
  intro cfs
  induction cfs with
  | nil => intro r c t v i g s hmem; simp [runLoop] at hmem
  | cons c0 cfs ih =>
    intro r c t v i g s hmem
    simp only [runLoop] at hmem
    rcases List.mem_append.mp hmem with h | h
    · obtain ⟨hc, hv, hi, hg⟩ := runCF_syn_args kern m fs sound c0 r c t v i g s h
      subst hc
      exact ⟨hv, hi, hg⟩
    · exact ih _ c t v i g s h

/-- Every IHC invocation of the CF loop uses the model's health
scalars and records the kernel's output for its CF. -/
theorem runLoop_ihc_args :
    ∀ (cfs : List ℝ) (r : R) (c : ℝ) (co ci : ℚ) (v : V),
      Event.ihcCall c co ci v ∈ (runLoop kern m fs sound cfs r).2.2 →
        co = m.cohc ∧ ci = m.cihc ∧ v = kern.run_ihc sound c fs m.cohc m.cihc ∧ c ∈ cfs := by
  intro cfs r c co ci v hmem
  have hf : Event.ihcCall c co ci v ∈ (runLoop kern m fs sound cfs r).2.2.filter Event.isIhc :=
    List.mem_filter.mpr ⟨hmem, rfl⟩
  rw [runLoop_ihc_filter] at hf
  obtain ⟨c0, hc0, heq⟩ := List.mem_map.mp hf
  cases heq
  exact ⟨rfl, rfl, rfl, hc0⟩

end RunLemmas

section ExceptLemmas

variable {V S R Sig : Type} (kern : Kernels V S R Sig) (fs : ℚ) (cf : ℝ) (vihc : V)
variable (typ : ANFType)

/-- With an unrecognized power-law mode, a nonempty fiber group under
the spec-modelled validation raises `InvalidParameter` on its first
synapse call. -/
theorem runAnfLoopE_bad (implnt : String) (ffGn : Bool)
    (hbad : checkPowerlaw implnt = .error .invalidParameter) :
    ∀ (n : ℕ), n ≠ 0 → ∀ (r : R),
      runAnfLoopE kern fs cf vihc typ implnt ffGn n none r = .error .invalidParameter := by
  intro n hn r
  cases n with
  | zero => exact absurd rfl hn
  | succ k => simp [runAnfLoopE, hbad]

/-- With an unrecognized power-law mode and at least one fiber
requested, a CF iteration under the spec-modelled validation raises
`InvalidParameter`. -/
theorem runCFE_bad (m : Model R) (sound : Sig)
    (hbad : checkPowerlaw m.powerlaw_implnt = .error .invalidParameter)
    (hcnt : m.hsr_num + m.msr_num + m.lsr_num ≠ 0) (r : R) :
    runCFE kern m fs sound cf r = .error .invalidParameter := by
  by_cases h1 : m.hsr_num ≠ 0
  · have e1 := runAnfLoopE_bad kern fs cf (kern.run_ihc sound cf fs m.cohc m.cihc) .hsr
      m.powerlaw_implnt m.with_ffGn hbad m.hsr_num h1 r
    simp [runCFE, runAnfE, h1, e1]
  · by_cases h2 : m.msr_num ≠ 0
    · have e2 := runAnfLoopE_bad kern fs cf (kern.run_ihc sound cf fs m.cohc m.cihc) .msr
        m.powerlaw_implnt m.with_ffGn hbad m.msr_num h2 r
      simp [runCFE, runAnfE, h1, h2, e2]
    · have h3 : m.lsr_num ≠ 0 := by omega
      have e3 := runAnfLoopE_bad kern fs cf (kern.run_ihc sound cf fs m.cohc m.cihc) .lsr
        m.powerlaw_implnt m.with_ffGn hbad m.lsr_num h3 r
      simp [runCFE, runAnfE, h1, h2, h3, e3]

end ExceptLemmas

section GreenwoodLemmas

/-- The linspace embedding returns the requested number of samples. -/
theorem linspace_length (a b : ℝ) (n : ℕ) : (linspace a b n).length = n := by
  simp [linspace]

/-- For `a < b` the `linspace` samples are strictly increasing. -/
theorem linspace_pairwise (a b : ℝ) (n : ℕ) (hab : a < b) :
    (linspace a b n).Pairwise (· < ·) := by
  unfold linspace
  rw [List.pairwise_map]
  refine List.Pairwise.imp_of_mem ?_ (List.pairwise_lt_range n)
  intro i j hi hj hij
  rw [List.mem_range] at hi hj
  have hn : 2 ≤ n := by omega
  have hc : (0 : ℝ) < (n : ℝ) - 1 := by
    have : (2 : ℝ) ≤ (n : ℝ) := by exact_mod_cast hn
    linarith
  have hij' : (i : ℝ) < (j : ℝ) := by exact_mod_cast hij
  have hba : (0 : ℝ) < b - a := by linarith
  have hmul : (b - a) * (i : ℝ) < (b - a) * (j : ℝ) :=
    mul_lt_mul_of_pos_left hij' hba
  have := (div_lt_div_iff_of_pos_right hc).mpr hmul
  linarith

/-- The first `linspace` sample is the left endpoint. -/
theorem linspace_head (a b : ℝ) (n : ℕ) (hn : n ≠ 0) : (linspace a b n).head? = some a := by
  unfold linspace
  cases n with
  | zero => exact absurd rfl hn
  | succ k =>
    rw [List.range_succ_eq_map]
    simp

/-- For `n ≥ 2` the last `linspace` sample is the right endpoint. -/
theorem linspace_getLast (a b : ℝ) (n : ℕ) (hn : 2 ≤ n) : (linspace a b n).getLast? = some b := by
  unfold linspace
  obtain ⟨k, rfl⟩ : ∃ k, n = k + 1 := ⟨n - 1, by omega⟩
  rw [List.range_succ, List.map_append, List.map_cons, List.map_nil, List.getLast?_concat]
  have hk : (1 : ℝ) ≤ (k : ℝ) := by exact_mod_cast (by omega : 1 ≤ k)
  have hc : ((k + 1 : ℕ) : ℝ) - 1 = (k : ℝ) := by push_cast; ring
  have hk0 : (k : ℝ) ≠ 0 := by linarith
  rw [hc, mul_div_assoc, div_self hk0, mul_one]
  norm_num

/-- The Greenwood place-to-frequency function is strictly increasing. -/
theorem greenwood_g_strictMono :
    StrictMono (fun x : ℝ => (456 : ℝ) * ((10 : ℝ) ^ ((2.1 : ℝ) * x) - 0.8)) := by
  intro x y hxy
  have h1 : (10 : ℝ) ^ ((2.1 : ℝ) * x) < (10 : ℝ) ^ ((2.1 : ℝ) * y) := by
    rw [Real.rpow_lt_rpow_left_iff (by norm_num : (1 : ℝ) < 10)]
    nlinarith
  simp only []
  nlinarith

/-- The Greenwood frequency map inverts its place map on positive
frequencies. -/
theorem greenwood_g_inv (f : ℝ) (hf : 0 < f) :
    (456 : ℝ) * ((10 : ℝ) ^ ((2.1 : ℝ) * (Real.logb 10 (f / 456 + 0.8) / 2.1)) - 0.8) = f := by
  have h1 : (2.1 : ℝ) * (Real.logb 10 (f / 456 + 0.8) / 2.1) = Real.logb 10 (f / 456 + 0.8) := by
    field_simp
  have h2 : (0 : ℝ) < f / 456 + 0.8 := by positivity
  rw [h1, Real.rpow_logb (by norm_num) (by norm_num) h2]
  ring

end GreenwoodLemmas

/-- C1: within each (CF, fiber type) group, the synapse stage is
invoked once per fiber instance when ffGn noise is enabled, and
exactly once for the whole group when noise is disabled, with that
single synout reused by the spike generator for every fiber instance
of the type. -/
theorem anf_group_synapse_invocations {V S R Sig : Type} (kern : Kernels V S R Sig)
    (fs : ℚ) (cf : ℝ) (vihc : V) (typ : ANFType) (implnt : String) (n : ℕ) (r : R)
    (hn : 0 < n) :
    ((_run_anf kern fs cf vihc typ implnt true n r).2.2.filter Event.isSyn).length = n ∧
      ((_run_anf kern fs cf vihc typ implnt true n r).2.2.filter Event.isSpike).length = n ∧
      ∃ s,
        (_run_anf kern fs cf vihc typ implnt false n r).2.2.filter Event.isSyn
            = [Event.synCall cf typ vihc implnt false s] ∧
          ((_run_anf kern fs cf vihc typ implnt false n r).2.2.filter Event.isSpike).length
              = n ∧
          ∀ so raw,
            Event.spikeCall so raw ∈ (_run_anf kern fs cf vihc typ implnt false n r).2.2 →
              so = s := by
  refine ⟨runAnfLoop_syn_count_true kern fs cf vihc typ implnt n none r,
    runAnfLoop_spike_count kern fs cf vihc typ implnt true n none r, ?_⟩
  obtain ⟨k, rfl⟩ : ∃ k, n = k + 1 := ⟨n - 1, by omega⟩
  have hre := runAnfLoop_false_reuse kern fs cf vihc typ implnt
    (kern.run_synapse r fs vihc cf typ implnt false).1 k
    (kern.run_spike_generator (kern.run_synapse r fs vihc cf typ implnt false).2 fs
      (kern.run_synapse r fs vihc cf typ implnt false).1).2
  refine ⟨(kern.run_synapse r fs vihc cf typ implnt false).1, ?_,
    runAnfLoop_spike_count kern fs cf vihc typ implnt false (k + 1) none r, ?_⟩
  · show (runAnfLoop kern fs cf vihc typ implnt false (k + 1) none r).2.2.filter
        Event.isSyn = _
    rw [runAnfLoop_succ_none]
    simp [List.filter_cons, Event.isSyn, hre.1]
  · intro so raw hmem
    have hmem' : Event.spikeCall so raw ∈
        (runAnfLoop kern fs cf vihc typ implnt false (k + 1) none r).2.2 := hmem
    rw [runAnfLoop_succ_none] at hmem'
    simp only [List.mem_cons] at hmem'
    rcases hmem' with heq | heq | hmem'
    · cases heq
    · cases heq; rfl
    · exact hre.2.1 so raw hmem'

/-- Witness for C1 at a concrete group of two HSR fibers. -/
theorem anf_group_synapse_invocations_witness :
    ((_run_anf kernW 1 440 7 ANFType.hsr "approx" true 2 ()).2.2.filter
        Event.isSyn).length = 2 ∧
      ((_run_anf kernW 1 440 7 ANFType.hsr "approx" true 2 ()).2.2.filter
        Event.isSpike).length = 2 ∧
      (_run_anf kernW 1 440 7 ANFType.hsr "approx" false 2 ()).2.2.filter Event.isSyn
          = [Event.synCall 440 ANFType.hsr 7 "approx" false ()] ∧
      ((_run_anf kernW 1 440 7 ANFType.hsr "approx" false 2 ()).2.2.filter
        Event.isSpike).length = 2 := by
  obtain ⟨h1, h2, s, h3, h4, _⟩ :=
    anf_group_synapse_invocations kernW 1 440 7 ANFType.hsr "approx" 2 () (by norm_num)
  exact ⟨h1, h2, h3, h4⟩

/-- C2: with noise enabled and a fixed integer seed, two separate
runs of the model (fresh construction, identical inputs) yield
identical spike trains, whatever entropy the ambient generator had. -/
theorem run_seed_reproducible {V S R Sig : Type} (kern : Kernels V S R Sig)
    (seedFn : ℤ → R) (e1 e2 : R) (anf_num : ℕ × ℕ × ℕ) (cf : CFArg)
    (implnt : String) (s : ℤ) (fs : ℚ) (sound : Sig) (m1 m2 : Model R)
    (h1 : Zilany2009.init seedFn e1 anf_num cf implnt true (some s) = .ok m1)
    (h2 : Zilany2009.init seedFn e2 anf_num cf implnt true (some s) = .ok m2) :
    (m1.run kern fs sound).1 = (m2.run kern fs sound).1 := by
  have hm : m1 = m2 := by
    simp only [Zilany2009.init] at h1 h2
    cases hfm : set_freq cf with
    | error e => rw [hfm] at h1; simp at h1
    | ok fm =>
      rw [hfm] at h1 h2
      injection h1 with h1'
      injection h2 with h2'
      rw [← h1', ← h2']
  rw [hm]

/-- Witness for C2 at seed 3 with two different entropy states. -/
theorem run_seed_reproducible_witness :
    ((⟨1, 1, 1, "actual", true, 1, 1, [1000], 3⟩ : Model ℤ).run kernZ 1 ()).1
      = ((⟨1, 1, 1, "actual", true, 1, 1, [1000], 3⟩ : Model ℤ).run kernZ 1 ()).1 := by
  refine run_seed_reproducible kernZ (fun z => z) 5 7 (1, 1, 1) (.ofFloat 1000) "actual"
    3 1 () _ _ ?_ ?_ <;> rfl

/-- C3: for `0 < freq_min < freq_max` and `freq_num ≥ 2`, `set_freq`
produces a frequency map of exactly `freq_num` strictly increasing CF
values whose first value is `freq_min` and whose last value is
`freq_max`. -/
theorem set_freq_range_spec (fmin fmax : ℝ) (n : ℕ)
    (h0 : 0 < fmin) (h1 : fmin < fmax) (h2 : 2 ≤ n) :
    set_freq (.ofTuple fmin fmax n) = .ok (greenwoodMap fmin fmax n) ∧
      (greenwoodMap fmin fmax n).length = n ∧
      (greenwoodMap fmin fmax n).Pairwise (· < ·) ∧
      (greenwoodMap fmin fmax n).head? = some fmin ∧
      (greenwoodMap fmin fmax n).getLast? = some fmax := by
  have hxx : Real.logb 10 (fmin / 456 + 0.8) / 2.1
      < Real.logb 10 (fmax / 456 + 0.8) / 2.1 := by
    have hlt : fmin / 456 + 0.8 < fmax / 456 + 0.8 := by linarith
    have hl : Real.logb 10 (fmin / 456 + 0.8) < Real.logb 10 (fmax / 456 + 0.8) :=
      Real.logb_lt_logb (by norm_num) (by positivity) hlt
    exact (div_lt_div_iff_of_pos_right (by norm_num : (0 : ℝ) < 2.1)).mpr hl
  refine ⟨rfl, ?_, ?_, ?_, ?_⟩
  · simp [greenwoodMap, linspace]
  · show ((linspace _ _ n).map _).Pairwise (· < ·)
    exact List.Pairwise.map _ (fun a b hab => greenwood_g_strictMono hab)
      (linspace_pairwise _ _ n hxx)
  · show ((linspace _ _ n).map _).head? = some fmin
    rw [List.head?_map, linspace_head _ _ n (by omega), Option.map_some']
    rw [greenwood_g_inv fmin h0]
  · show ((linspace _ _ n).map _).getLast? = some fmax
    rw [List.getLast?_map, linspace_getLast _ _ n h2, Option.map_some']
    rw [greenwood_g_inv fmax (by linarith)]

/-- Witness for C3 at the spec scenario (200 Hz, 20000 Hz, 50 points). -/
theorem set_freq_range_spec_witness :
    set_freq (.ofTuple 200 20000 50) = .ok (greenwoodMap 200 20000 50) ∧
      (greenwoodMap 200 20000 50).length = 50 ∧
      (greenwoodMap 200 20000 50).Pairwise (· < ·) ∧
      (greenwoodMap 200 20000 50).head? = some 200 ∧
      (greenwoodMap 200 20000 50).getLast? = some 20000 :=
  set_freq_range_spec 200 20000 50 (by norm_num) (by norm_num) (by norm_num)

/-- C4: a single call to `run` invokes IHC transduction exactly once
per CF of the frequency map (in order, with the model's health
scalars), and the `vihc` it records is the one consumed by every
synapse invocation at that CF. -/
theorem run_single_ihc_per_cf {V S R Sig : Type} (kern : Kernels V S R Sig) (m : Model R)
    (fs : ℚ) (sound : Sig) :
    (m.run kern fs sound).2.2.filter Event.isIhc
        = m.freq_map.map
            (fun c => Event.ihcCall c m.cohc m.cihc (kern.run_ihc sound c fs m.cohc m.cihc)) ∧
      ∀ (c : ℝ) (t : ANFType) (v : V) (i : String) (g : Bool) (s : S),
        Event.synCall c t v i g s ∈ (m.run kern fs sound).2.2 →
          v = kern.run_ihc sound c fs m.cohc m.cihc := by
  refine ⟨runLoop_ihc_filter kern m fs sound m.freq_map m.rng, ?_⟩
  intro c t v i g s hmem
  exact (runLoop_syn_args kern m fs sound m.freq_map m.rng c t v i g s hmem).1

/-- Witness for C4 on a concrete run with one CF. -/
theorem run_single_ihc_per_cf_witness :
    (mdlW.run kernW 1 ()).2.2.filter Event.isIhc
        = [Event.ihcCall 440 1 1 (kernW.run_ihc () 440 1 1 1)] ∧
      (7 : ℕ) = kernW.run_ihc () 440 1 1 1 := by
  refine ⟨?_, ?_⟩
  · simpa [mdlW] using (run_single_ihc_per_cf kernW mdlW 1 ()).1
  · refine (run_single_ihc_per_cf kernW mdlW 1 ()).2 440 .hsr 7 "approx" false () ?_
    exact List.mem_cons_of_mem _ (List.mem_cons_self _ _)

/-- C5: `run` returns exactly `|freq_map| * (hsr + msr + lsr)` spike
trains — one per fiber instance per CF — and a fiber type whose count
is zero contributes no trains. -/
theorem run_train_count {V S R Sig : Type} (kern : Kernels V S R Sig) (m : Model R)
    (fs : ℚ) (sound : Sig) :
    (m.run kern fs sound).1.length
        = m.freq_map.length * (m.hsr_num + m.msr_num + m.lsr_num) ∧
      ∀ tr ∈ (m.run kern fs sound).1,
        (tr.typ = .hsr → m.hsr_num ≠ 0) ∧ (tr.typ = .msr → m.msr_num ≠ 0) ∧
          (tr.typ = .lsr → m.lsr_num ≠ 0) := by
  refine ⟨runLoop_fst_length kern m fs sound m.freq_map m.rng, ?_⟩
  intro tr htr
  obtain ⟨ha, hb, hc, -⟩ := runLoop_trains_shape kern m fs sound m.freq_map m.rng tr htr
  exact ⟨ha, hb, hc⟩

/-- Witness for C5 on a concrete run with one CF and one HSR fiber. -/
theorem run_train_count_witness :
    (mdlW.run kernW 1 ()).1.length = 1 ∧ mdlW.hsr_num ≠ 0 := by
  refine ⟨?_, ?_⟩
  · simpa [mdlW] using (run_train_count kernW mdlW 1 ()).1
  · have h : (⟨[(2 : ℚ) * 1000], 440, ANFType.hsr⟩ : Train) ∈ (mdlW.run kernW 1 ()).1 :=
      List.mem_cons_self _ _
    exact ((run_train_count kernW mdlW 1 ()).2 _ h).1 rfl

/-- C6: every spike train `run` emits is tagged with a CF of the
frequency map (and its fiber type, carried by the train record), and
its spike times are a recorded spike-generator output with zero
entries removed, rescaled to milliseconds by multiplying by 1000. -/
theorem run_trains_tagged {V S R Sig : Type} (kern : Kernels V S R Sig) (m : Model R)
    (fs : ℚ) (sound : Sig) :
    ∀ tr ∈ (m.run kern fs sound).1,
      tr.cf ∈ m.freq_map ∧
        ∃ s raw,
          Event.spikeCall s raw ∈ (m.run kern fs sound).2.2 ∧
            tr.spikes = (raw.filter (fun t => decide (t ≠ 0))).map (fun t => t * 1000) := by
  intro tr htr
  obtain ⟨-, -, -, hcf, s, raw, hmem, hsp⟩ :=
    runLoop_trains_shape kern m fs sound m.freq_map m.rng tr htr
  exact ⟨hcf, s, raw, hmem, hsp⟩

/-- Witness for C6 on a concrete run: the single train is tagged with
CF 440 and rescales the generator output `[0 s, 2 s]` to `[2000 ms]`. -/
theorem run_trains_tagged_witness :
    (440 : ℝ) ∈ mdlW.freq_map ∧
      ∃ s raw,
        Event.spikeCall s raw ∈ (mdlW.run kernW 1 ()).2.2 ∧
          ([(2 : ℚ) * 1000] : List ℚ)
            = (raw.filter (fun t => decide (t ≠ 0))).map (fun t => t * 1000) := by
  have h : (⟨[(2 : ℚ) * 1000], 440, ANFType.hsr⟩ : Train) ∈ (mdlW.run kernW 1 ()).1 :=
    List.mem_cons_self _ _
  exact run_trains_tagged kernW mdlW 1 () _ h

/-- C7: a newly constructed model has `cohc = 1` and `cihc = 1`, and
these are exactly the health values every IHC invocation of `run`
receives. -/
theorem init_health_params {V S R Sig : Type} (kern : Kernels V S R Sig) (seedFn : ℤ → R)
    (entropy : R) (anf_num : ℕ × ℕ × ℕ) (cf : CFArg) (implnt : String) (ffGn : Bool)
    (seed : Option ℤ) (m : Model R) (fs : ℚ) (sound : Sig)
    (h : Zilany2009.init seedFn entropy anf_num cf implnt ffGn seed = .ok m) :
    m.cohc = 1 ∧ m.cihc = 1 ∧
      ∀ (c : ℝ) (co ci : ℚ) (v : V),
        Event.ihcCall c co ci v ∈ (m.run kern fs sound).2.2 →
          co = 1 ∧ ci = 1 ∧ v = kern.run_ihc sound c fs 1 1 := by
  have hm : m.cohc = 1 ∧ m.cihc = 1 := by
    simp only [Zilany2009.init] at h
    cases hfm : set_freq cf with
    | error e => rw [hfm] at h; simp at h
    | ok fm =>
      rw [hfm] at h
      injection h with h'
      rw [← h']
      exact ⟨rfl, rfl⟩
  obtain ⟨hco, hci⟩ := hm
  refine ⟨hco, hci, ?_⟩
  intro c co ci v hmem
  obtain ⟨h1, h2, h3, -⟩ := runLoop_ihc_args kern m fs sound m.freq_map m.rng c co ci v hmem
  rw [hco] at h1
  rw [hci] at h2
  rw [hco, hci] at h3
  exact ⟨h1, h2, h3⟩

/-- Witness for C7 on a concretely constructed model. -/
theorem init_health_params_witness :
    mdlW.cohc = 1 ∧ mdlW.cihc = 1 ∧ (7 : ℕ) = kernW.run_ihc () 440 1 1 1 := by
  have h : Zilany2009.init (fun _ => ()) () (1, 0, 0) (.ofFloat 440) "approx" false none
      = .ok mdlW := rfl
  obtain ⟨h1, h2, h3⟩ :=
    init_health_params kernW (fun _ => ()) () (1, 0, 0) (.ofFloat 440) "approx" false none
      mdlW 1 () h
  exact ⟨h1, h2, (h3 440 1 1 7 (List.mem_cons_self _ _)).2.2⟩

/-- C8: under the spec-modelled native validation, a power-law mode
that is not one of the recognized values makes `run` return an
`InvalidParameter` error synchronously to its caller (whenever a
synapse call happens at all, i.e. some CF and some fiber are
requested), rather than accepting the value silently. -/
theorem run_invalid_powerlaw {V S R Sig : Type} (kern : Kernels V S R Sig) (m : Model R)
    (fs : ℚ) (sound : Sig)
    (hmode1 : m.powerlaw_implnt ≠ "actual") (hmode2 : m.powerlaw_implnt ≠ "approx")
    (hfm : m.freq_map ≠ []) (hcnt : m.hsr_num + m.msr_num + m.lsr_num ≠ 0) :
    m.runE kern fs sound = .error .invalidParameter := by
  have hbad : checkPowerlaw m.powerlaw_implnt = .error .invalidParameter := by
    simp [checkPowerlaw, hmode1, hmode2]
  obtain ⟨c, cfs, hcons⟩ := List.exists_cons_of_ne_nil hfm
  have hc := runCFE_bad kern fs c m sound hbad hcnt m.rng
  show runLoopE kern m fs sound m.freq_map m.rng = _
  rw [hcons]
  simp [runLoopE, hc]

/-- Witness for C8 on a concrete model with mode `"bogus"`. -/
theorem run_invalid_powerlaw_witness :
    mdlBad.runE kernW 1 () = .error .invalidParameter :=
  run_invalid_powerlaw kernW mdlBad 1 () (by decide) (by decide)
    (by simp [mdlBad]) (by decide)

/-- C9: every spike time in every train returned by `run` is nonzero:
entries equal to 0 are filtered from the spike-generator output before
the conversion to milliseconds. -/
theorem run_spikes_nonzero {V S R Sig : Type} (kern : Kernels V S R Sig) (m : Model R)
    (fs : ℚ) (sound : Sig) :
    ∀ tr ∈ (m.run kern fs sound).1, ∀ t ∈ tr.spikes, t ≠ 0 := by
  intro tr htr t ht
  obtain ⟨-, -, -, -, s, raw, -, hsp⟩ :=
    runLoop_trains_shape kern m fs sound m.freq_map m.rng tr htr
  rw [hsp] at ht
  obtain ⟨x, hx, rfl⟩ := List.mem_map.mp ht
  have hx0 : x ≠ 0 := of_decide_eq_true (List.mem_filter.mp hx).2
  intro h0
  rcases mul_eq_zero.mp h0 with h | h
  · exact hx0 h
  · norm_num at h

/-- Witness for C9: the concrete run keeps the 2 s spike (as 2000 ms)
and its value is nonzero; the 0 s spike was dropped. -/
theorem run_spikes_nonzero_witness : ((2 : ℚ) * 1000) ≠ 0 := by
  have h : (⟨[(2 : ℚ) * 1000], 440, ANFType.hsr⟩ : Train) ∈ (mdlW.run kernW 1 ()).1 :=
    List.mem_cons_self _ _
  exact run_spikes_nonzero kernW mdlW 1 () _ h ((2 : ℚ) * 1000) (List.mem_cons_self _ _)

/-- C10: `set_freq` raises its assertion error exactly on arguments
that are neither an int, a float nor a tuple (lists and arrays are
rejected); an int argument is converted to float and yields the
single-element frequency map `[cf]`. -/
theorem set_freq_assert_iff :
    (∀ cf : CFArg, set_freq cf = .error .assertionError ↔ cf.isIntFloatOrTuple = false) ∧
      ∀ n : ℤ, set_freq (.ofInt n) = .ok [(n : ℝ)] := by
  constructor
  · intro cf
    cases cf <;> simp [set_freq, CFArg.isIntFloatOrTuple]
  · intro n
    rfl

/-- Witness for C10: a Python list is rejected with the assertion
error; the int 3 yields the map `[3.0]`. -/
theorem set_freq_assert_iff_witness :
    set_freq (.ofList [(1 : ℝ)]) = .error .assertionError ∧
      set_freq (.ofInt 3) = .ok [((3 : ℤ) : ℝ)] :=
  ⟨(set_freq_assert_iff.1 (.ofList [(1 : ℝ)])).mpr rfl, set_freq_assert_iff.2 3⟩
